import Mathlib

/-!
Verification of the sequence lifecycle and block-based cache-accounting core
of an LLM inference server (the `Sequence` / `SequenceGroup` / token-block
model of `mistralrs-core/src/sequence.rs`).

The Rust source is shallowly embedded: machine integers (`u32`, `usize`)
become `Nat` (with `Nat` subtraction mirroring `saturating_sub`),
`f32` scores and log-probabilities become `ℚ` (the code only adds and
compares them; `partial_cmp(..).expect(..)` is total on the non-NaN floats
the model covers), vectors become lists, and the mutex-guarded group shared
by the sequences of one request becomes an explicit `SequenceGroup` value
threaded through the operations.
-/

namespace Mistralrs

/-- Embeds `StopReason` (`sequence.rs`): why a sequence terminated. -/
inductive StopReason where
  | Eos
  | StopTok (tok : Nat)
  | Length (len : Nat)
  | ModelLength (len : Nat)
  | StopString (stop_string_idx : Nat) (completion_bytes_pos : Nat)
  | Canceled
  | GeneratedImage
  | GeneratedSpeech
  | ToolCalls
deriving DecidableEq

/-- Embeds `SequenceState` (`sequence.rs`): the sequence scheduling state machine. -/
inductive SequenceState where
  | Done (reason : StopReason)
  | RunningPrompt
  | RunningCompletion
  | Waiting
  | Error
  | RunningPrefillPrompt
  | FinishedAborted
  | FinishedIgnored
  | Swapped
deriving DecidableEq

/-- Modelled from the spec: `LogicalTokenBlock` lives in
`mistralrs-core/src/paged_attention`, which is not part of the excerpted
source; the spec describes it as a fixed-capacity (`block_size` tokens)
append-only token container that is "full" when it holds exactly
`block_size` tokens. -/
structure LogicalTokenBlock where
  tokens : List Nat
  block_size : Nat
deriving DecidableEq

/-- Modelled from the spec: a fresh empty block of the given capacity. -/
def LogicalTokenBlock.new (block_size : Nat) : LogicalTokenBlock :=
  { tokens := [], block_size := block_size }

/-- Modelled from the spec: a block is full when it holds exactly `block_size` tokens. -/
def LogicalTokenBlock.is_full (b : LogicalTokenBlock) : Bool :=
  b.tokens.length == b.block_size

/-- Modelled from the spec: a block is empty when it holds no tokens. -/
def LogicalTokenBlock.is_empty (b : LogicalTokenBlock) : Bool :=
  b.tokens.length == 0

/-- Modelled from the spec: append one token id to the block. -/
def LogicalTokenBlock.append_token_id (b : LogicalTokenBlock) (tok : Nat) : LogicalTokenBlock :=
  { b with tokens := b.tokens ++ [tok] }

/-- Modelled from the spec: pop one token from the tail of the block. -/
def LogicalTokenBlock.pop_token (b : LogicalTokenBlock) : LogicalTokenBlock :=
  { b with tokens := b.tokens.dropLast }

/-- Embeds `util_append_token_to_blocks` (`sequence.rs`): append `tok` to the
last block (allocating the first block when the table is empty), then, if the
last block has become full, immediately push a fresh empty trailing block. -/
def util_append_token_to_blocks (tok : Nat) (logical_token_blocks : List LogicalTokenBlock)
    (block_size : Nat) : List LogicalTokenBlock :=
  let blocks :=
    match logical_token_blocks.getLast? with
    | some last => logical_token_blocks.dropLast ++ [last.append_token_id tok]
    | none => [(LogicalTokenBlock.new block_size).append_token_id tok]
  match blocks.getLast? with
  | some last => if last.is_full then blocks ++ [LogicalTokenBlock.new block_size] else blocks
  | none => blocks

/-- Folds `util_append_token_to_blocks` over a token list, mirroring
`SequenceCustomMetadata::append_tokens_to_blocks` (`sequence.rs`). -/
def appendAllToBlocks (toks : List Nat) (blocks : List LogicalTokenBlock)
    (block_size : Nat) : List LogicalTokenBlock :=
  toks.foldl (fun bs t => util_append_token_to_blocks t bs block_size) blocks

/-- Embeds the `blocks_to_add_new_tok!` helper (`sequence.rs`): `0` when the
trailing block can take the next token without a new physical page, `1`
otherwise. -/
def blocks_to_add_new_tok (logical_token_blocks : List LogicalTokenBlock) : Nat :=
  let last := logical_token_blocks.getLast?
  if !((last.map (fun l => l.is_full || l.is_empty)).getD false) then 0 else 1

/-- Embeds `SequenceCustomMetadata` (`sequence.rs`); the physical prefill
block handles are opaque to this core and modelled as bare ids. -/
inductive SequenceCustomMetadata where
  | PagedAttention (logical_token_blocks : List LogicalTokenBlock)
      (physical_blocks_prefill : Option (List Nat)) (block_size : Nat)
  | None
deriving DecidableEq

/-- Embeds `SequenceCustomMetadata::append_token_to_blocks` (`sequence.rs`). -/
def SequenceCustomMetadata.append_token_to_blocks
    (m : SequenceCustomMetadata) (tok : Nat) : SequenceCustomMetadata :=
  match m with
  | .PagedAttention blocks phys bs => .PagedAttention (util_append_token_to_blocks tok blocks bs) phys bs
  | .None => .None

/-- Modelled from the spec: the sampler collaborator "returns a token plus its
log-probability" (`sampler::Logprobs` is outside the excerpted source); the
log-probability is modelled as a rational. -/
structure Logprobs where
  token : Nat
  logprob : ℚ
deriving DecidableEq

/-- Embeds `galil_seiferas::gs_find` as used by `Sequence::is_done`
(`sequence.rs`): exact substring search returning the byte offset of the
first (leftmost) occurrence of `pat` in `hay`. -/
def gs_find : List Nat → List Nat → Option Nat
  | [], pat => if pat.isPrefixOf [] then some 0 else none
  | b :: t, pat =>
    if pat.isPrefixOf (b :: t) then some 0 else (gs_find t pat).map (· + 1)

/-- Embeds the stop-string loop of `Sequence::is_done` (`sequence.rs`):
try each configured stop string in order against the accumulated completion
bytes, returning the first string (by index) that occurs, with the byte
offset of its match. -/
def findStopStringAux (completion_bytes : List Nat) :
    List (List Nat) → Nat → Option StopReason
  | [], _ => none
  | stopStr :: rest, idx =>
    match gs_find completion_bytes stopStr with
    | some pos => some (StopReason.StopString idx pos)
    | none => findStopStringAux completion_bytes rest (idx + 1)

/-- The Unicode replacement character U+FFFD, as a code point. -/
def replacementChar : Nat := 0xFFFD

/-- Is `b` a UTF-8 continuation byte (`0x80..=0xBF`)? -/
def isCont (b : Nat) : Bool := 0x80 ≤ b && b ≤ 0xBF

/-- Valid second byte of a three-byte UTF-8 sequence with lead `b`
(`0xE0`: `0xA0..=0xBF`; `0xED`: `0x80..=0x9F`, excluding surrogates;
otherwise any continuation byte). -/
def cont1OkE (b c1 : Nat) : Bool :=
  if b = 0xE0 then 0xA0 ≤ c1 && c1 ≤ 0xBF
  else if b = 0xED then 0x80 ≤ c1 && c1 ≤ 0x9F
  else isCont c1

/-- Valid second byte of a four-byte UTF-8 sequence with lead `b`
(`0xF0`: `0x90..=0xBF`; `0xF4`: `0x80..=0x8F`, capping at U+10FFFF;
otherwise any continuation byte). -/
def cont1OkF (b c1 : Nat) : Bool :=
  if b = 0xF0 then 0x90 ≤ c1 && c1 ≤ 0xBF
  else if b = 0xF4 then 0x80 ≤ c1 && c1 ≤ 0x8F
  else isCont c1

/-- One step of lossy UTF-8 decoding at lead byte `b` with remaining input
`rest`: the decoded code point (or U+FFFD) and how many bytes of `rest`
belong to the decoded sequence. Mirrors the substitution-of-maximal-subparts
behaviour of Rust's `String::from_utf8_lossy`: an invalid sequence consumes
exactly its longest valid prefix and yields one replacement character. -/
def decodeOne (b : Nat) (rest : List Nat) : Nat × Nat :=
  if b ≤ 0x7F then (b, 0)
  else if 0xC2 ≤ b && b ≤ 0xDF then
    match rest with
    | c1 :: _ => if isCont c1 then ((b - 0xC0) * 64 + (c1 - 0x80), 1) else (replacementChar, 0)
    | [] => (replacementChar, 0)
  else if 0xE0 ≤ b && b ≤ 0xEF then
    match rest with
    | c1 :: rest1 =>
      if cont1OkE b c1 then
        match rest1 with
        | c2 :: _ =>
          if isCont c2 then ((b - 0xE0) * 4096 + (c1 - 0x80) * 64 + (c2 - 0x80), 2)
          else (replacementChar, 1)
        | [] => (replacementChar, 1)
      else (replacementChar, 0)
    | [] => (replacementChar, 0)
  else if 0xF0 ≤ b && b ≤ 0xF4 then
    match rest with
    | c1 :: rest1 =>
      if cont1OkF b c1 then
        match rest1 with
        | c2 :: rest2 =>
          if isCont c2 then
            match rest2 with
            | c3 :: _ =>
              if isCont c3 then
                ((b - 0xF0) * 262144 + (c1 - 0x80) * 4096 + (c2 - 0x80) * 64 + (c3 - 0x80), 3)
              else (replacementChar, 2)
            | [] => (replacementChar, 2)
          else (replacementChar, 1)
        | [] => (replacementChar, 1)
      else (replacementChar, 0)
    | [] => (replacementChar, 0)
  else (replacementChar, 0)

/-- Fuelled lossy UTF-8 decoding loop; each step consumes at least one byte,
so fuel equal to the input length never runs out. -/
def utf8LossyFuel : Nat → List Nat → List Nat
  | 0, _ => []
  | _, [] => []
  | fuel + 1, b :: rest =>
    let d := decodeOne b rest
    d.1 :: utf8LossyFuel fuel (rest.drop d.2)

/-- Embeds `String::from_utf8_lossy` as used by `Sequence::peek_delta`
(`sequence.rs`): decode a byte list to a list of Unicode code points,
replacing each maximal invalid subpart with U+FFFD. -/
def utf8Lossy (l : List Nat) : List Nat := utf8LossyFuel l.length l

/-- The Unicode `White_Space` code points, as tested by Rust's
`char::is_whitespace` (used by `str::trim_start` in `Sequence::peek_delta`). -/
def isWhitespaceCp (c : Nat) : Bool :=
  (0x09 ≤ c && c ≤ 0x0D) || c == 0x20 || c == 0x85 || c == 0xA0 || c == 0x1680 ||
    (0x2000 ≤ c && c ≤ 0x200A) || c == 0x2028 || c == 0x2029 || c == 0x202F ||
    c == 0x205F || c == 0x3000

/-- Embeds `str::trim_start` on decoded code points. -/
def trimStartCp (l : List Nat) : List Nat := l.dropWhile isWhitespaceCp

/-- Embeds the `Sequence` struct (`sequence.rs`), restricted to the state the
verified operations read or write. `u32`/`usize` fields become `Nat`, byte
buffers become `List Nat`, and `f32` log-probabilities become `ℚ`. The
layer-indexed KV caches are represented by the sequence-length dimension
(`dims()[2]`) of each populated slot, since `Sequence::len` reads nothing
else from them; the engine always creates at least one layer. -/
structure Sequence where
  prompt_len : Nat
  max_len : Option Nat
  stop_tokens : List Nat
  stop_strings : List (List Nat)
  tokens : List Nat
  logprobs : List Logprobs
  cumulative_logprob : ℚ
  last_logprob : ℚ
  last_completion_bytes_len : Nat
  last_is_done : Option StopReason
  completion_bytes : List Nat
  stream_idx : Nat
  prefill_prompt_toks : Option (List Nat)
  is_tmp : Bool
  state : SequenceState
  custom_metadata : SequenceCustomMetadata
  xlora_cache : Option (List (Option Nat))
  cache : List (Option Nat)
deriving DecidableEq

/-- Layer-0 lookup in a cache slot list, as `c[0]` in `Sequence::len`. -/
def cache0 (c : List (Option Nat)) : Option Nat := c.headD none

/-- The layer-0 X-LoRA cache entry consulted by `Sequence::len`
(`xlora_cache.is_some_and(|c| c[0].is_some())`, then its value). -/
def Sequence.xlora_cache0 (s : Sequence) : Option Nat :=
  match s.xlora_cache with
  | some c => cache0 c
  | none => none

/-- Embeds `Sequence::len` (`sequence.rs`): prefill-override length if one is
pending, raw token count for temporary (speculative) sequences, otherwise the
layer-0 cache tensor's sequence dimension plus one (X-LoRA cache preferred,
then the normal cache), falling back to the raw token count when no cache
slot is populated. -/
def Sequence.len (s : Sequence) : Nat :=
  match s.prefill_prompt_toks with
  | some toks => toks.length
  | none =>
    if s.is_tmp then s.tokens.length
    else
      match s.xlora_cache0 with
      | some d => d + 1
      | none =>
        match cache0 s.cache with
        | some d => d + 1
        | none => s.tokens.length

/-- Embeds `Sequence::add_token` (`sequence.rs`): appends the sampled token
and its log-probability to history; unless the stop reason is a token-level
stop (`Eos` / `StopTok`), appends the decoded bytes to the client-visible
buffer and records their length; updates the block table; clears any pending
prefill override. -/
def Sequence.add_token (s : Sequence) (tok : Logprobs) (completion_bytes : List Nat)
    (is_done : Option StopReason) : Sequence :=
  let stopped_by_token :=
    match is_done with
    | some StopReason.Eos => true
    | some (StopReason.StopTok _) => true
    | _ => false
  let s1 :=
    if stopped_by_token then s
    else
      { s with
        completion_bytes := s.completion_bytes ++ completion_bytes,
        last_completion_bytes_len := completion_bytes.length }
  { s1 with
    last_logprob := tok.logprob,
    last_is_done := is_done,
    custom_metadata := s1.custom_metadata.append_token_to_blocks tok.token,
    cumulative_logprob := s1.cumulative_logprob + tok.logprob,
    tokens := s1.tokens ++ [tok.token],
    logprobs := s1.logprobs ++ [tok],
    prefill_prompt_toks := none }

/-- Folds `Sequence.add_token` over a list of sampled tokens. -/
def Sequence.add_tokens (s : Sequence) (calls : List (Logprobs × List Nat × Option StopReason)) :
    Sequence :=
  calls.foldl (fun s c => s.add_token c.1 c.2.1 c.2.2) s

/-- Embeds `Sequence::blocks_to_add_new_tok` (`sequence.rs`); `none` models the
`unreachable!` panic taken when the sequence is not in paged-attention mode. -/
def Sequence.blocks_to_add_new_tok (s : Sequence) : Option Nat :=
  match s.custom_metadata with
  | .PagedAttention blocks _ _ => some (Mistralrs.blocks_to_add_new_tok blocks)
  | .None => none

/-- The `is_eos` computation opening `Sequence::is_done` (`sequence.rs`):
membership of the token in the provided end-of-sequence set, `false` when no
set is provided. -/
def isEosTok (tok : Nat) (eos_tok : Option (List Nat)) : Bool :=
  match eos_tok with
  | some eos => eos.contains tok
  | none => false

/-- Embeds `Sequence::is_done` (`sequence.rs`): classify termination for a
newly produced token, earlier checks winning. -/
def Sequence.is_done (s : Sequence) (tok : Nat) (eos_tok : Option (List Nat))
    (max_model_len : Nat) : Option StopReason :=
  let is_eos := isEosTok tok eos_tok
  if is_eos then
    some StopReason.Eos
  else if s.state = SequenceState.Done StopReason.Canceled then
    some StopReason.Canceled
  else if s.stop_tokens.contains tok then
    some (StopReason.StopTok tok)
  else if s.max_len.isSome ∧ s.tokens.length - s.prompt_len + 1 ≥ s.max_len.getD 0 then
    some (StopReason.Length (s.max_len.getD 0))
  else if s.tokens.length - s.prompt_len ≥ max_model_len then
    some (StopReason.ModelLength max_model_len)
  else
    findStopStringAux s.completion_bytes s.stop_strings 0

/-- Embeds `Sequence::peek_delta` (`sequence.rs`): decode the unconsumed
byte suffix; report nothing when it ends in a replacement character (an
incomplete multi-byte code point); trim leading whitespace on the very first
delta. Never advances the stream cursor. -/
def Sequence.peek_delta (s : Sequence) : Option (List Nat) :=
  let is_first := s.stream_idx == 0
  let new_decoded := utf8Lossy (s.completion_bytes.drop s.stream_idx)
  if new_decoded.getLast? == some replacementChar then none
  else if is_first then some (trimStartCp new_decoded)
  else some new_decoded

/-- Embeds `Sequence::get_delta` (`sequence.rs`): `peek_delta`, additionally
advancing the stream cursor to the end of the buffer when text was produced. -/
def Sequence.get_delta (s : Sequence) : Option (List Nat) × Sequence :=
  let new_decoded := s.peek_delta
  match new_decoded with
  | some _ => (new_decoded, { s with stream_idx := s.completion_bytes.length })
  | none => (new_decoded, s)

/-- Modelled from the spec: a chat choice; its payload (`response.rs` is
outside the excerpted source) is opaque to this core. -/
abbrev Choice := Nat

/-- Modelled from the spec: a completion-API choice; opaque payload. -/
abbrev CompletionChoice := Nat

/-- Modelled from the spec: an image-generation choice; opaque payload. -/
abbrev ImageChoice := Nat

/-- Modelled from the spec: a speech PCM segment; opaque payload. -/
abbrev SpeechPcm := Nat

/-- Modelled from the spec: a raw-logits choice; opaque payload. -/
abbrev RawChoice := Nat

/-- Modelled from the spec: a streaming chat chunk choice; opaque payload. -/
abbrev ChunkChoice := Nat

/-- Modelled from the spec: a streaming completion chunk choice; opaque payload. -/
abbrev CompletionChunkChoice := Nat

/-- Modelled from the spec: the closed, tagged set of response kinds the
group writes to the per-request transport (`response.rs` is outside the
excerpted source); payloads are opaque to this core. -/
inductive Response where
  | Done (resp : Nat)
  | Chunk (resp : Nat)
  | CompletionDone (resp : Nat)
  | CompletionChunk (resp : Nat)
  | ImageGeneration (resp : Nat)
  | Speech (resp : Nat)
  | Raw (resp : Nat)
deriving DecidableEq

/-- Embeds the `SequenceGroup` struct (`sequence.rs`): fan-in state for the N
parallel sequences of one client request. -/
structure SequenceGroup where
  n_choices : Nat
  best_of : Option Nat
  total_prompt_toks : Nat
  total_toks : Nat
  total_prompt_time : Nat
  total_time : Nat
  total_completion_time : Nat
  choices : List Choice
  image_choices : List ImageChoice
  speech_pcms : List SpeechPcm
  raw_choices : List RawChoice
  completion_choices : List (ℚ × CompletionChoice)
  chat_streaming_chunks : List ChunkChoice
  completion_streaming_chunks : List CompletionChunkChoice
  is_streaming : Bool
  is_chat : Bool
deriving DecidableEq

/-- Embeds `SequenceGroup::new` (`sequence.rs`). -/
def SequenceGroup.new (n_choices : Nat) (is_streaming is_chat : Bool)
    (best_of : Option Nat) : SequenceGroup :=
  { n_choices := n_choices
    best_of := best_of
    total_prompt_toks := 0
    total_toks := 0
    total_prompt_time := 0
    total_time := 0
    total_completion_time := 0
    choices := []
    image_choices := []
    speech_pcms := []
    raw_choices := []
    completion_choices := []
    chat_streaming_chunks := []
    completion_streaming_chunks := []
    is_streaming := is_streaming
    is_chat := is_chat }

/-- Embeds the group half of `Sequence::add_choice_to_group` (`sequence.rs`):
push one chat choice onto the shared group. -/
def SequenceGroup.add_choice (g : SequenceGroup) (choice : Choice) : SequenceGroup :=
  { g with choices := g.choices ++ [choice] }

/-- Embeds the group half of `Sequence::add_completion_choice_to_group`
(`sequence.rs`): push one `(cumulative_logprob, choice)` pair. -/
def SequenceGroup.add_completion_choice (g : SequenceGroup) (score : ℚ)
    (choice : CompletionChoice) : SequenceGroup :=
  { g with completion_choices := g.completion_choices ++ [(score, choice)] }

/-- Embeds `Sequence::set_state` (`sequence.rs`): entering `Error`
saturating-decrements the owning group's target choice count; the state is
then written. The mutex-shared group is passed and returned explicitly. -/
def Sequence.set_state (s : Sequence) (g : SequenceGroup) (state : SequenceState) :
    Sequence × SequenceGroup :=
  let g1 :=
    if state = SequenceState.Error then { g with n_choices := g.n_choices - 1 } else g
  ({ s with state := state }, g1)

/-- Embeds `SequenceGroup::maybe_send_chat_done_response` (`sequence.rs`):
the list of responses pushed onto the transport — one `Done` exactly when
the accumulated chat choices reach the target count. -/
def SequenceGroup.maybe_send_chat_done_response (g : SequenceGroup) (response : Nat) :
    List Response :=
  if g.choices.length = g.n_choices then [Response.Done response] else []

/-- The descending-score order used by `SequenceGroup::get_completion_choices`
(`sequence.rs`): its Rust comparator is `b.0.partial_cmp(&a.0)`, total on the
non-NaN scores the model covers. -/
def byScoreDesc (a b : ℚ × CompletionChoice) : Prop := b.1 ≤ a.1

instance : DecidableRel byScoreDesc := fun a b => inferInstanceAs (Decidable (b.1 ≤ a.1))

instance : IsTotal (ℚ × CompletionChoice) byScoreDesc := ⟨fun a b => le_total b.1 a.1⟩

instance : IsTrans (ℚ × CompletionChoice) byScoreDesc :=
  ⟨fun _ _ _ h1 h2 => le_trans h2 h1⟩

/-- Embeds `SequenceGroup::get_completion_choices` (`sequence.rs`): with
`best_of = some k`, stable-sort the `(score, choice)` pairs by descending
score (Rust's `sort_by` is a stable sort; `List.insertionSort` is the stable
sort for the same total preorder) and keep the first `k`; otherwise return
all choices in contribution order. -/
def SequenceGroup.get_completion_choices (g : SequenceGroup) : List CompletionChoice :=
  match g.best_of with
  | some best_of =>
    ((g.completion_choices.insertionSort byScoreDesc).take best_of).map Prod.snd
  | none => g.completion_choices.map Prod.snd

/-- Embeds the group-state half of `SequenceGroup::maybe_send_streaming_response`
(`sequence.rs`): when a full step's worth of streaming chunks has accumulated,
the buffer is swapped out (emptied) as the combined chunk response is emitted. -/
def SequenceGroup.maybe_send_streaming_response (g : SequenceGroup) : SequenceGroup :=
  if g.chat_streaming_chunks.length = g.n_choices ∧ g.is_streaming then
    { g with chat_streaming_chunks := [] }
  else if g.completion_streaming_chunks.length = g.n_choices ∧ g.is_streaming then
    { g with completion_streaming_chunks := [] }
  else g

/-- The operations of this core that mutate a `SequenceGroup` (each mirrors
one group-touching method of `sequence.rs`). -/
inductive GroupOp where
  | addChoice (c : Choice)
  | addImageChoice (c : ImageChoice)
  | addSpeechPcm (p : SpeechPcm)
  | addRawChoice (r : RawChoice)
  | addCompletionChoice (score : ℚ) (c : CompletionChoice)
  | addChatStreamingChunk (c : ChunkChoice)
  | addCompletionStreamingChunk (c : CompletionChunkChoice)
  | updateTimeInfo (ptoks toks ptime ttime ctime : Nat)
  | maybeSendStreaming
  | memberSetState (st : SequenceState)

/-- The effect of each group-mutating operation on the shared group state. -/
def groupStep (op : GroupOp) (g : SequenceGroup) : SequenceGroup :=
  match op with
  | .addChoice c => g.add_choice c
  | .addImageChoice c => { g with image_choices := g.image_choices ++ [c] }
  | .addSpeechPcm p => { g with speech_pcms := g.speech_pcms ++ [p] }
  | .addRawChoice r => { g with raw_choices := g.raw_choices ++ [r] }
  | .addCompletionChoice score c => g.add_completion_choice score c
  | .addChatStreamingChunk c =>
    { g with chat_streaming_chunks := g.chat_streaming_chunks ++ [c] }
  | .addCompletionStreamingChunk c =>
    { g with completion_streaming_chunks := g.completion_streaming_chunks ++ [c] }
  | .updateTimeInfo ptoks toks ptime ttime ctime =>
    { g with
      total_prompt_toks := ptoks
      total_toks := toks
      total_prompt_time := ptime
      total_time := ttime
      total_completion_time := ctime }
  | .maybeSendStreaming => g.maybe_send_streaming_response
  | .memberSetState st =>
    if st = SequenceState.Error then { g with n_choices := g.n_choices - 1 } else g

/-- Folds a list of group-mutating operations over a group state. -/
def groupSteps (ops : List GroupOp) (g : SequenceGroup) : SequenceGroup :=
  ops.foldl (fun g op => groupStep op g) g

/-- A neutral freshly created sequence (as built by `Sequence::new_waiting`
with an empty prompt and no stop configuration), used to instantiate the
universally quantified theorems at concrete inputs. -/
def baseSeq : Sequence :=
  { prompt_len := 0
    max_len := none
    stop_tokens := []
    stop_strings := []
    tokens := []
    logprobs := []
    cumulative_logprob := 0
    last_logprob := 0
    last_completion_bytes_len := 0
    last_is_done := none
    completion_bytes := []
    stream_idx := 0
    prefill_prompt_toks := none
    is_tmp := false
    state := SequenceState.Waiting
    custom_metadata := SequenceCustomMetadata.None
    xlora_cache := none
    cache := [none] }

/-- A sequence in paged-attention mode whose block table holds a single
empty logical block of capacity 2 (the shape left behind after a prefill
filled the previous block exactly). -/
def seqEmptyTrailingBlock : Sequence :=
  { baseSeq with
      custom_metadata :=
        SequenceCustomMetadata.PagedAttention [LogicalTokenBlock.new 2] none 2 }

/-- A completion group with `n = 1`, `best_of = 2`, and three contributed
completion choices with scores `1, 3, 2` (in that contribution order) and
payloads `10, 20, 30`. -/
def groupBestOfExample : SequenceGroup :=
  { SequenceGroup.new 1 false false (some 2) with
      completion_choices := [((1 : ℚ), 10), (3, 20), (2, 30)] }

/-- A sequence with a populated layer-0 KV-cache slot of sequence dimension
10 but only 5 prompt tokens: `len()` reports the cache length, not the token
count. -/
def seqWithCache : Sequence :=
  { baseSeq with
      prompt_len := 5
      tokens := [0, 0, 0, 0, 0]
      cache := [some 10] }

/-- A sequence whose completion buffer holds one undelivered ASCII byte
(`"a"`) with the stream cursor at the start. -/
def seqOneByteDelta : Sequence := { baseSeq with completion_bytes := [0x61] }

/-- A sequence configured with the single stop string `"END"` whose decoded
output buffer holds `"hello wEND"` (the `'E'` at byte offset 7). -/
def seqStopString : Sequence :=
  { baseSeq with
      stop_strings := [[69, 78, 68]]
      completion_bytes := [104, 101, 108, 108, 111, 32, 119, 69, 78, 68] }

/-! ## Theorems -/

/-- C3 counterexample: with the block table holding a single *empty* trailing
block (capacity 2), `blocks_to_add_new_tok` returns `1`, not the `0` the
claim predicts for an empty trailing block. -/
theorem claim_c3_counterexample :
    seqEmptyTrailingBlock.blocks_to_add_new_tok = some 1 ∧
      (LogicalTokenBlock.new 2).is_empty = true ∧
      seqEmptyTrailingBlock.blocks_to_add_new_tok ≠ some 0 := by
  refine ⟨by decide, by decide, by decide⟩

/-- C3 (amended): in paged-attention mode `blocks_to_add_new_tok` returns `1`
exactly when the trailing logical block exists and is full *or empty*, and
returns `0` otherwise — in particular when the trailing block is partly
filled, or when the table has no blocks at all. -/
theorem claim_c3_blocks_to_add_new_tok :
    (∀ (s : Sequence) (blocks : List LogicalTokenBlock) (phys : Option (List Nat)) (bs : Nat),
      s.custom_metadata = SequenceCustomMetadata.PagedAttention blocks phys bs →
      s.blocks_to_add_new_tok = some (Mistralrs.blocks_to_add_new_tok blocks))
    ∧ (∀ blocks : List LogicalTokenBlock,
      Mistralrs.blocks_to_add_new_tok blocks = 1 ↔
        ∃ last, blocks.getLast? = some last ∧
          (last.is_full = true ∨ last.is_empty = true))
    ∧ (∀ blocks : List LogicalTokenBlock,
      Mistralrs.blocks_to_add_new_tok blocks = 0 ↔
        ∀ last, blocks.getLast? = some last →
          (last.is_full = false ∧ last.is_empty = false)) := by
  refine ⟨?_, ?_, ?_⟩
  · intro s blocks phys bs h
    simp [Sequence.blocks_to_add_new_tok, h]
  · intro blocks
    cases hl : blocks.getLast? with
    | none => simp [blocks_to_add_new_tok, hl]
    | some l =>
      by_cases hfe : (l.is_full || l.is_empty) = true
      · simp only [blocks_to_add_new_tok, hl, Option.map_some', Option.getD_some, hfe,
          Bool.not_true]
        simp only [Bool.or_eq_true] at hfe
        simp [hfe]
      · simp only [blocks_to_add_new_tok, hl, Option.map_some', Option.getD_some,
          Bool.not_eq_true'] at hfe ⊢
        simp only [Bool.or_eq_true, not_or, Bool.not_eq_true] at *
        simp [hfe]
  · intro blocks
    cases hl : blocks.getLast? with
    | none => simp [blocks_to_add_new_tok, hl]
    | some l =>
      by_cases hfe : (l.is_full || l.is_empty) = true
      · simp only [blocks_to_add_new_tok, hl, Option.map_some', Option.getD_some, hfe,
          Bool.not_true]
        simp only [Bool.or_eq_true] at hfe
        rcases hfe with h | h <;> simp [h]
      · simp only [blocks_to_add_new_tok, hl, Option.map_some', Option.getD_some,
          Bool.not_eq_true'] at hfe ⊢
        simp only [Bool.or_eq_true, not_or, Bool.not_eq_true] at hfe
        simp [hfe.1, hfe.2]

/-- C3 witness: evaluating the amended characterisation on a table whose
trailing block is partly filled (one token, capacity 2). -/
theorem claim_c3_blocks_to_add_new_tok_witness :
    Mistralrs.blocks_to_add_new_tok [⟨[5], 2⟩] = 0 :=
  (claim_c3_blocks_to_add_new_tok.2.2 [⟨[5], 2⟩]).mpr (by decide)

/-- C4: `maybe_send_chat_done_response` pushes one `Done` response exactly
when the accumulated chat choices reach the target choice count, and with
`n_choices = 2` two successive contributions (any payloads) trigger exactly
one `Done` emission across the two invocations. -/
theorem claim_c4_chat_done_emission :
    (∀ (g : SequenceGroup) (resp : Nat),
      g.maybe_send_chat_done_response resp = [Response.Done resp] ↔
        g.choices.length = g.n_choices)
    ∧ (∀ (g : SequenceGroup) (resp : Nat),
      g.maybe_send_chat_done_response resp = [] ↔ g.choices.length ≠ g.n_choices)
    ∧ (∀ (c1 c2 : Choice) (r1 r2 : Nat) (streaming chat : Bool) (bo : Option Nat),
      (((SequenceGroup.new 2 streaming chat bo).add_choice c1).maybe_send_chat_done_response
          r1).length +
        ((((SequenceGroup.new 2 streaming chat bo).add_choice c1).add_choice
            c2).maybe_send_chat_done_response r2).length = 1) := by
  refine ⟨?_, ?_, ?_⟩
  · intro g resp
    by_cases h : g.choices.length = g.n_choices <;>
      simp [SequenceGroup.maybe_send_chat_done_response, h]
  · intro g resp
    by_cases h : g.choices.length = g.n_choices <;>
      simp [SequenceGroup.maybe_send_chat_done_response, h]
  · intro c1 c2 r1 r2 streaming chat bo
    simp [SequenceGroup.maybe_send_chat_done_response, SequenceGroup.add_choice,
      SequenceGroup.new]

/-- C6: `add_token` leaves the client-visible completion byte buffer
unchanged when the stop reason is `Eos` or `StopTok`, and otherwise appends
exactly the provided decoded bytes and records their length. -/
theorem claim_c6_add_token_bytes (s : Sequence) (tok : Logprobs) (bytes : List Nat)
    (r : Option StopReason) :
    ((r = some StopReason.Eos ∨ ∃ t, r = some (StopReason.StopTok t)) →
      (s.add_token tok bytes r).completion_bytes = s.completion_bytes)
    ∧ (¬(r = some StopReason.Eos ∨ ∃ t, r = some (StopReason.StopTok t)) →
      (s.add_token tok bytes r).completion_bytes = s.completion_bytes ++ bytes ∧
        (s.add_token tok bytes r).last_completion_bytes_len = bytes.length) := by
  constructor
  · rintro (rfl | ⟨t, rfl⟩) <;> simp [Sequence.add_token]
  · intro h
    cases r with
    | none => simp [Sequence.add_token]
    | some v =>
      cases v with
      | Eos => exact absurd (Or.inl rfl) h
      | StopTok t => exact absurd (Or.inr ⟨t, rfl⟩) h
      | Length l => simp [Sequence.add_token]
      | ModelLength l => simp [Sequence.add_token]
      | StopString i p => simp [Sequence.add_token]
      | Canceled => simp [Sequence.add_token]
      | GeneratedImage => simp [Sequence.add_token]
      | GeneratedSpeech => simp [Sequence.add_token]
      | ToolCalls => simp [Sequence.add_token]

/-- C6 witness: adding a token with no stop reason appends its decoded bytes
to the (initially empty) buffer and records their length. -/
theorem claim_c6_add_token_bytes_witness :
    (baseSeq.add_token ⟨1, 0⟩ [7, 8] none).completion_bytes = [7, 8] ∧
      (baseSeq.add_token ⟨1, 0⟩ [7, 8] none).last_completion_bytes_len = 2 := by
  have h := (claim_c6_add_token_bytes baseSeq ⟨1, 0⟩ [7, 8] none).2 (by simp)
  exact ⟨h.1, h.2⟩

/-- C9: for a group expecting `N ≥ 1` choices, a member sequence entering
`Error` decrements the group's target choice count to `N - 1`, puts the
sequence in the terminal `Error` state, and the group's chat-done emission
then fires exactly when `N - 1` chat choices have accumulated. -/
theorem claim_c9_set_state_error (s : Sequence) (g : SequenceGroup) (N : Nat)
    (hN : g.n_choices = N) (_h1 : 1 ≤ N) :
    (s.set_state g SequenceState.Error).2.n_choices = N - 1 ∧
      (s.set_state g SequenceState.Error).1.state = SequenceState.Error ∧
      ∀ (cs : List Choice) (resp : Nat),
        (({ (s.set_state g SequenceState.Error).2 with
              choices := cs } : SequenceGroup).maybe_send_chat_done_response resp).length = 1 ↔
          cs.length = N - 1 := by
  refine ⟨by simp [Sequence.set_state, hN], by simp [Sequence.set_state], ?_⟩
  intro cs resp
  by_cases h : cs.length = N - 1 <;>
    simp [Sequence.set_state, SequenceGroup.maybe_send_chat_done_response, hN, h]

/-- C9 witness: a group with `n_choices = 2` drops to `1` when a member
sequence errors, and one accumulated chat choice then triggers the done
emission. -/
theorem claim_c9_set_state_error_witness :
    (baseSeq.set_state (SequenceGroup.new 2 false true none) SequenceState.Error).2.n_choices
        = 1 ∧
      (baseSeq.set_state (SequenceGroup.new 2 false true none)
          SequenceState.Error).1.state = SequenceState.Error := by
  have h := claim_c9_set_state_error baseSeq (SequenceGroup.new 2 false true none) 2
    rfl (by decide)
  exact ⟨h.1, h.2.1⟩

/-- C10: no group-mutating operation of this core increases `n_choices`; the
decrement on a member error saturates at zero; hence `n_choices` is
monotonically non-increasing along any operation sequence. -/
theorem claim_c10_n_choices_monotone :
    (∀ (op : GroupOp) (g : SequenceGroup), (groupStep op g).n_choices ≤ g.n_choices)
    ∧ (∀ g : SequenceGroup, g.n_choices = 0 →
      (groupStep (GroupOp.memberSetState SequenceState.Error) g).n_choices = 0)
    ∧ (∀ (ops : List GroupOp) (g : SequenceGroup),
      (groupSteps ops g).n_choices ≤ g.n_choices) := by
  have hstep : ∀ (op : GroupOp) (g : SequenceGroup),
      (groupStep op g).n_choices ≤ g.n_choices := by
    intro op g
    cases op with
    | memberSetState st =>
      by_cases h : st = SequenceState.Error <;> simp [groupStep, h]
    | maybeSendStreaming =>
      simp only [groupStep, SequenceGroup.maybe_send_streaming_response]
      split <;> try split
      all_goals simp
    | addChoice c => simp [groupStep, SequenceGroup.add_choice]
    | addImageChoice c => simp [groupStep]
    | addSpeechPcm p => simp [groupStep]
    | addRawChoice r => simp [groupStep]
    | addCompletionChoice q c => simp [groupStep, SequenceGroup.add_completion_choice]
    | addChatStreamingChunk c => simp [groupStep]
    | addCompletionStreamingChunk c => simp [groupStep]
    | updateTimeInfo a b c d e => simp [groupStep]
  refine ⟨hstep, ?_, ?_⟩
  · intro g h0
    simp [groupStep, h0]
  · intro ops
    induction ops with
    | nil => intro g; simp [groupSteps]
    | cons op rest ih =>
      intro g
      calc (groupSteps (op :: rest) g).n_choices
          = (groupSteps rest (groupStep op g)).n_choices := by simp [groupSteps]
        _ ≤ (groupStep op g).n_choices := ih (groupStep op g)
        _ ≤ g.n_choices := hstep op g

/-- C10 witness: the saturating branch evaluated at a group whose target
choice count is already zero. -/
theorem claim_c10_n_choices_monotone_witness :
    (groupStep (GroupOp.memberSetState SequenceState.Error)
        (SequenceGroup.new 0 false false none)).n_choices = 0 :=
  claim_c10_n_choices_monotone.2.1 (SequenceGroup.new 0 false false none) rfl

/-- Appending into an empty table creates the first block (and immediately a
second, empty one when the capacity is 1). -/
theorem util_append_nil (t B : Nat) :
    util_append_token_to_blocks t [] B =
      if 1 = B then [⟨[t], B⟩, LogicalTokenBlock.new B] else [⟨[t], B⟩] := by
  by_cases h : 1 = B <;>
    simp [util_append_token_to_blocks, LogicalTokenBlock.new,
      LogicalTokenBlock.append_token_id, LogicalTokenBlock.is_full, h]

/-- Appending into a non-empty table appends to the last block and allocates
a fresh empty trailing block exactly when that append fills it. -/
theorem util_append_concat (t : Nat) (bs : List LogicalTokenBlock)
    (last : LogicalTokenBlock) (B : Nat) :
    util_append_token_to_blocks t (bs ++ [last]) B =
      if (last.append_token_id t).is_full = true
      then bs ++ [last.append_token_id t, LogicalTokenBlock.new B]
      else bs ++ [last.append_token_id t] := by
  simp only [util_append_token_to_blocks, List.getLast?_concat, List.dropLast_concat]
  split <;> simp_all

/-- Folding tokens into a table holding one unfilled block stays inside that
block until it fills, at which point an empty trailing block appears. -/
theorem appendAll_one_block (B : Nat) :
    ∀ (toks pre : List Nat), pre.length < B → pre.length + toks.length ≤ B →
      appendAllToBlocks toks [⟨pre, B⟩] B =
        if pre.length + toks.length = B
        then [⟨pre ++ toks, B⟩, LogicalTokenBlock.new B]
        else [⟨pre ++ toks, B⟩] := by
  intro toks
  induction toks with
  | nil =>
    intro pre hlt _hle
    have hne : pre.length + ([] : List Nat).length ≠ B := by
      simp only [List.length_nil]
      omega
    rw [if_neg hne]
    simp [appendAllToBlocks]
  | cons t rest ih =>
    intro pre hlt hle
    have step : appendAllToBlocks (t :: rest) [⟨pre, B⟩] B =
        appendAllToBlocks rest (util_append_token_to_blocks t [⟨pre, B⟩] B) B := rfl
    have happ := util_append_concat t [] ⟨pre, B⟩ B
    simp only [List.nil_append] at happ
    have hlenapp : (pre ++ [t]).length = pre.length + 1 := by simp
    by_cases hfull : pre.length + 1 = B
    · have hrest : rest = [] := by
        have : rest.length = 0 := by
          simp only [List.length_cons] at hle
          omega
        exact List.eq_nil_of_length_eq_zero this
      subst hrest
      have hisfull : ((⟨pre, B⟩ : LogicalTokenBlock).append_token_id t).is_full = true := by
        simp [LogicalTokenBlock.append_token_id, LogicalTokenBlock.is_full, hfull]
      rw [step, happ, if_pos hisfull]
      have hcond : pre.length + ([t] : List Nat).length = B := by
        simp only [List.length_cons, List.length_nil]
        omega
      rw [if_pos hcond]
      simp [appendAllToBlocks, LogicalTokenBlock.append_token_id]
    · have hisfull : ((⟨pre, B⟩ : LogicalTokenBlock).append_token_id t).is_full = false := by
        simp [LogicalTokenBlock.append_token_id, LogicalTokenBlock.is_full, hfull]
      rw [step, happ, if_neg (by simp [hisfull])]
      have hlt' : (pre ++ [t]).length < B := by
        rw [hlenapp]
        simp only [List.length_cons] at hle
        omega
      have hle' : (pre ++ [t]).length + rest.length ≤ B := by
        rw [hlenapp]
        simp only [List.length_cons] at hle
        omega
      rw [LogicalTokenBlock.append_token_id]
      rw [ih (pre ++ [t]) hlt' hle']
      have hassoc : (pre ++ [t]) ++ rest = pre ++ t :: rest := by simp
      have hcnt : ((pre ++ [t]).length + rest.length = B) ↔
          (pre.length + (t :: rest).length = B) := by
        rw [hlenapp]
        simp only [List.length_cons]
        omega
      by_cases hc : (pre ++ [t]).length + rest.length = B
      · rw [if_pos hc, if_pos (hcnt.mp hc), hassoc]
      · rw [if_neg hc, if_neg (fun h => hc (hcnt.mpr h)), hassoc]

/-- `appendAllToBlocks` distributes over list concatenation. -/
theorem appendAll_append (l1 l2 : List Nat) (bs : List LogicalTokenBlock) (B : Nat) :
    appendAllToBlocks (l1 ++ l2) bs B = appendAllToBlocks l2 (appendAllToBlocks l1 bs B) B := by
  simp [appendAllToBlocks, List.foldl_append]

/-- C2 counterexample: with block capacity `B = 1`, appending `B + 1 = 2`
tokens to an empty table yields three blocks, and the second block (one
token) *is* full, contradicting the claim that it is not full. -/
theorem claim_c2_counterexample :
    (appendAllToBlocks [7, 8] [] 1).length = 3 ∧
      (appendAllToBlocks [7, 8] [] 1)[1]? = some ⟨[8], 1⟩ ∧
      ((appendAllToBlocks [7, 8] [] 1)[1]?).map LogicalTokenBlock.is_full = some true := by
  refine ⟨by decide, by decide, by decide⟩

/-- C2 (amended): for capacity `B ≥ 1`, appending exactly `B` tokens to an
empty table gives exactly two blocks — the first full with the `B` tokens,
the second empty; appending `B + 1` tokens with `B ≥ 2` leaves the second
block holding exactly one token and not full (for `B = 1` that second block
is itself full, and a third empty block has been allocated); and after any
append the trailing block is never full, because a new empty trailing block
is allocated immediately after an append fills the last block. -/
theorem claim_c2_block_invariant :
    (∀ (B : Nat) (toks : List Nat), 0 < B → toks.length = B →
      appendAllToBlocks toks [] B = [⟨toks, B⟩, LogicalTokenBlock.new B])
    ∧ (∀ (B : Nat) (toks : List Nat), 2 ≤ B → toks.length = B + 1 →
      appendAllToBlocks toks [] B = [⟨toks.take B, B⟩, ⟨toks.drop B, B⟩] ∧
        (toks.drop B).length = 1 ∧
        (LogicalTokenBlock.mk (toks.drop B) B).is_full = false)
    ∧ (∀ (t : Nat) (blocks : List LogicalTokenBlock) (B : Nat), 0 < B →
      ((util_append_token_to_blocks t blocks B).getLast?).map LogicalTokenBlock.is_full =
        some false) := by
  have parta : ∀ (B : Nat) (toks : List Nat), 0 < B → toks.length = B →
      appendAllToBlocks toks [] B = [⟨toks, B⟩, LogicalTokenBlock.new B] := by
    intro B toks hB hlen
    cases toks with
    | nil => simp at hlen; omega
    | cons t rest =>
      have step : appendAllToBlocks (t :: rest) [] B =
          appendAllToBlocks rest (util_append_token_to_blocks t [] B) B := rfl
      rw [step, util_append_nil]
      by_cases hB1 : 1 = B
      · have hrest : rest = [] := by
          have : rest.length = 0 := by
            simp only [List.length_cons] at hlen
            omega
          exact List.eq_nil_of_length_eq_zero this
        subst hrest
        rw [if_pos hB1]
        simp [appendAllToBlocks]
      · rw [if_neg hB1]
        have hlt : ([t] : List Nat).length < B := by
          simp only [List.length_singleton]
          simp only [List.length_cons] at hlen
          omega
        have hle : ([t] : List Nat).length + rest.length ≤ B := by
          simp only [List.length_singleton]
          simp only [List.length_cons] at hlen
          omega
        rw [appendAll_one_block B rest [t] hlt hle]
        have hc : ([t] : List Nat).length + rest.length = B := by
          simp only [List.length_singleton]
          simp only [List.length_cons] at hlen
          omega
        rw [if_pos hc]
        simp
  refine ⟨parta, ?_, ?_⟩
  · intro B toks hB hlen
    have htake : (toks.take B).length = B := by
      simp [List.length_take, hlen]
    have hdroplen : (toks.drop B).length = 1 := by
      simp [List.length_drop, hlen]
    obtain ⟨t, ht⟩ := List.length_eq_one.mp hdroplen
    have hsplit : toks = toks.take B ++ toks.drop B := (List.take_append_drop B toks).symm
    have happend : appendAllToBlocks toks [] B =
        appendAllToBlocks (toks.drop B) (appendAllToBlocks (toks.take B) [] B) B := by
      conv_lhs => rw [hsplit]
      exact appendAll_append (toks.take B) (toks.drop B) [] B
    have hfirst := parta B (toks.take B) (by omega) htake
    rw [happend, hfirst, ht]
    have hone : appendAllToBlocks [t] [⟨toks.take B, B⟩, LogicalTokenBlock.new B] B =
        util_append_token_to_blocks t [⟨toks.take B, B⟩, LogicalTokenBlock.new B] B := rfl
    have hconcat := util_append_concat t [⟨toks.take B, B⟩] (LogicalTokenBlock.new B) B
    have hnotfull : ((LogicalTokenBlock.new B).append_token_id t).is_full = false := by
      simp [LogicalTokenBlock.new, LogicalTokenBlock.append_token_id,
        LogicalTokenBlock.is_full]
      omega
    refine ⟨?_, by simp, ?_⟩
    · rw [hone]
      have : ([⟨toks.take B, B⟩, LogicalTokenBlock.new B] : List LogicalTokenBlock) =
          [⟨toks.take B, B⟩] ++ [LogicalTokenBlock.new B] := rfl
      rw [this, hconcat, if_neg (by simp [hnotfull])]
      simp [LogicalTokenBlock.new, LogicalTokenBlock.append_token_id]
    · simp [LogicalTokenBlock.is_full]
      omega
  · intro t blocks B hB
    rcases List.eq_nil_or_concat blocks with rfl | ⟨bs, last, rfl⟩
    · rw [util_append_nil]
      by_cases hB1 : 1 = B
      · rw [if_pos hB1]
        simp [LogicalTokenBlock.new, LogicalTokenBlock.is_full]
        omega
      · rw [if_neg hB1]
        simp [LogicalTokenBlock.is_full]
        omega
    · simp only [List.concat_eq_append]
      rw [util_append_concat]
      by_cases hfull : (last.append_token_id t).is_full = true
      · rw [if_pos hfull]
        have : bs ++ [last.append_token_id t, LogicalTokenBlock.new B] =
            (bs ++ [last.append_token_id t]) ++ [LogicalTokenBlock.new B] := by simp
        rw [this, List.getLast?_concat]
        simp [LogicalTokenBlock.new, LogicalTokenBlock.is_full]
        omega
      · rw [if_neg hfull, List.getLast?_concat]
        simp only [Option.map_some', Option.some_inj]
        exact Bool.eq_false_iff.mpr hfull

/-- C2 witness: capacity 2 — two appends give a full block and an empty
block; three appends leave the second block with one token, not full. -/
theorem claim_c2_block_invariant_witness :
    appendAllToBlocks [7, 8] [] 2 = [⟨[7, 8], 2⟩, LogicalTokenBlock.new 2] ∧
      appendAllToBlocks [7, 8, 9] [] 2 = [⟨[7, 8], 2⟩, ⟨[9], 2⟩] := by
  have h1 := claim_c2_block_invariant.1 2 [7, 8] (by decide) rfl
  have h2 := (claim_c2_block_invariant.2.1 2 [7, 8, 9] (by decide) rfl).1
  exact ⟨h1, h2⟩

/-- `add_token` leaves the prompt length, cache slots, temporary flag
untouched, clears the prefill override, and grows the token list by one. -/
theorem add_token_preserves (s : Sequence) (tok : Logprobs) (bytes : List Nat)
    (r : Option StopReason) :
    (s.add_token tok bytes r).prompt_len = s.prompt_len ∧
      (s.add_token tok bytes r).xlora_cache = s.xlora_cache ∧
      (s.add_token tok bytes r).cache = s.cache ∧
      (s.add_token tok bytes r).is_tmp = s.is_tmp ∧
      (s.add_token tok bytes r).prefill_prompt_toks = none ∧
      (s.add_token tok bytes r).tokens.length = s.tokens.length + 1 := by
  simp only [Sequence.add_token]
  split <;> simp

/-- Under no prefill override and unpopulated layer-0 caches, `len` after a
batch of `add_token` calls is the starting token count plus the number of
calls. -/
theorem add_tokens_len (calls : List (Logprobs × List Nat × Option StopReason)) :
    ∀ s : Sequence, s.prefill_prompt_toks = none → s.xlora_cache0 = none →
      cache0 s.cache = none →
      (s.add_tokens calls).len = s.tokens.length + calls.length := by
  induction calls with
  | nil =>
    intro s h1 h2 h3
    show s.len = s.tokens.length + 0
    rw [Nat.add_zero]
    unfold Sequence.len
    rw [h1, h2, h3]
    by_cases ht : s.is_tmp <;> simp [ht]
  | cons c rest ih =>
    intro s h1 h2 h3
    have hstep : s.add_tokens (c :: rest) = (s.add_token c.1 c.2.1 c.2.2).add_tokens rest := rfl
    obtain ⟨_hp, hx, hc, _ht, hpre, hlen⟩ := add_token_preserves s c.1 c.2.1 c.2.2
    have hx0 : (s.add_token c.1 c.2.1 c.2.2).xlora_cache0 = none := by
      unfold Sequence.xlora_cache0
      rw [hx]
      exact h2
    have hc0 : cache0 (s.add_token c.1 c.2.1 c.2.2).cache = none := by
      rw [hc]; exact h3
    rw [hstep, ih _ hpre hx0 hc0, hlen]
    simp only [List.length_cons]
    omega

/-- C7 counterexample: a sequence with no prefill override, token count equal
to its prompt length 5, but a populated layer-0 cache slot of sequence
dimension 10: after `k = 0` calls to `add_token`, `len()` is 11, not
`prompt_length + 0 = 5`. -/
theorem claim_c7_counterexample :
    seqWithCache.prefill_prompt_toks = none ∧
      seqWithCache.tokens.length = seqWithCache.prompt_len ∧
      (seqWithCache.add_tokens []).len = 11 ∧
      seqWithCache.prompt_len + 0 = 5 := by
  refine ⟨rfl, rfl, rfl, rfl⟩

/-- C7 (amended): for a sequence with no prefill override, unpopulated
layer-0 KV-cache slots (normal and X-LoRA), and token count equal to its
prompt length, `k` calls to `add_token` leave `len()` at `prompt_length + k`. -/
theorem claim_c7_len_after_add_tokens (s : Sequence)
    (calls : List (Logprobs × List Nat × Option StopReason))
    (hpre : s.prefill_prompt_toks = none) (hx : s.xlora_cache0 = none)
    (hc : cache0 s.cache = none) (hstart : s.tokens.length = s.prompt_len) :
    (s.add_tokens calls).len = s.prompt_len + calls.length := by
  rw [add_tokens_len calls s hpre hx hc, hstart]

/-- C7 witness: a fresh empty-prompt sequence, one `add_token` call,
`len() = 0 + 1`. -/
theorem claim_c7_len_after_add_tokens_witness :
    (baseSeq.add_tokens [(⟨1, 0⟩, [7], none)]).len = 1 := by
  have h := claim_c7_len_after_add_tokens baseSeq [(⟨1, 0⟩, [7], none)] rfl rfl rfl rfl
  simpa using h

/-- Inserting into a list under the descending-score order places the new
pair before every equal-scored pair already present, so a score-class filter
sees it first. -/
theorem filter_orderedInsert (q : ℚ) (a : ℚ × CompletionChoice)
    (l : List (ℚ × CompletionChoice)) :
    (List.orderedInsert byScoreDesc a l).filter (fun x => decide (x.1 = q)) =
      if a.1 = q then a :: l.filter (fun x => decide (x.1 = q))
      else l.filter (fun x => decide (x.1 = q)) := by
  induction l with
  | nil =>
    by_cases h : a.1 = q <;> simp [List.orderedInsert, h]
  | cons b l ih =>
    simp only [List.orderedInsert]
    by_cases hr : byScoreDesc a b
    · rw [if_pos hr]
      by_cases ha : a.1 = q <;> simp [List.filter_cons, ha]
    · rw [if_neg hr]
      have hab : a.1 < b.1 := not_le.mp hr
      by_cases hb : b.1 = q
      · have ha : ¬a.1 = q := by
          rw [← hb]
          exact ne_of_lt hab
        simp [List.filter_cons, hb, ha, ih]
      · by_cases ha : a.1 = q <;> simp [List.filter_cons, hb, ha, ih]

/-- The stable insertion sort preserves each score class of the input in
order: filtering the sorted list to one score gives exactly the input's
pairs of that score, in contribution order. -/
theorem filter_insertionSort (q : ℚ) (l : List (ℚ × CompletionChoice)) :
    (l.insertionSort byScoreDesc).filter (fun x => decide (x.1 = q)) =
      l.filter (fun x => decide (x.1 = q)) := by
  induction l with
  | nil => rfl
  | cons a l ih =>
    simp only [List.insertionSort]
    rw [filter_orderedInsert]
    by_cases ha : a.1 = q <;> simp [List.filter_cons, ha, ih]

/-- C5: with `best_of = K`, `get_completion_choices` returns the contributed
choices reordered by some permutation that is sorted by descending score and
preserves contribution order inside every equal-score class (stability),
truncated to the first `K`; on scores `[1, 3, 2]` with `K = 2` it returns
the payloads of the scores `[3, 2]`, in that order. -/
theorem claim_c5_best_of :
    (∀ (g : SequenceGroup) (k : Nat), g.best_of = some k →
      ∃ sorted_choices : List (ℚ × CompletionChoice),
        sorted_choices.Perm g.completion_choices ∧
        List.Sorted byScoreDesc sorted_choices ∧
        (∀ q : ℚ, sorted_choices.filter (fun x => decide (x.1 = q)) =
          g.completion_choices.filter (fun x => decide (x.1 = q))) ∧
        g.get_completion_choices = (sorted_choices.take k).map Prod.snd)
    ∧ groupBestOfExample.get_completion_choices = [20, 30] := by
  constructor
  · intro g k h
    refine ⟨g.completion_choices.insertionSort byScoreDesc,
      List.perm_insertionSort byScoreDesc g.completion_choices,
      List.sorted_insertionSort byScoreDesc g.completion_choices,
      fun q => filter_insertionSort q g.completion_choices, ?_⟩
    simp [SequenceGroup.get_completion_choices, h]
  · decide

/-- C5 witness: the characterisation applied to the `best_of = 2`,
scores-`[1, 3, 2]` example group. -/
theorem claim_c5_best_of_witness :
    ∃ sorted_choices : List (ℚ × CompletionChoice),
      sorted_choices.Perm groupBestOfExample.completion_choices ∧
      List.Sorted byScoreDesc sorted_choices ∧
      (∀ q : ℚ, sorted_choices.filter (fun x => decide (x.1 = q)) =
        groupBestOfExample.completion_choices.filter (fun x => decide (x.1 = q))) ∧
      groupBestOfExample.get_completion_choices = (sorted_choices.take 2).map Prod.snd :=
  claim_c5_best_of.1 groupBestOfExample 2 rfl

/-- The last element of a list is a member. -/
theorem mem_of_getLast?_eq_some {l : List Nat} {a : Nat} (h : l.getLast? = some a) :
    a ∈ l := by
  obtain ⟨hne, rfl⟩ := List.mem_getLast?_eq_getLast h
  exact List.getLast_mem hne

/-- C8 counterexample: with one undelivered ASCII byte, the first `get_delta`
returns the decoded text, but the second returns `some ""` (an empty delta),
not the `None` the claim predicts. -/
theorem claim_c8_counterexample :
    (seqOneByteDelta.get_delta).1 = some [0x61] ∧
      ((seqOneByteDelta.get_delta).2.get_delta).1 = some [] ∧
      ((seqOneByteDelta.get_delta).2.get_delta).1 ≠ none := by
  refine ⟨by decide, by decide, by decide⟩

/-- C8 (amended): appending decoded bytes that end on a complete code point
to a caught-up sequence makes the first `get_delta` return `Some` of the new
text (whitespace-trimmed when it is the very first delta) and advance the
cursor to the end of the buffer; the second call returns `Some ""` — an
empty delta rather than `None`, re-emitting nothing — and leaves the
sequence unchanged, so every further call does the same until new bytes
arrive. -/
theorem claim_c8_get_delta (s : Sequence) (old bytes : List Nat)
    (hcb : s.completion_bytes = old ++ bytes) (hidx : s.stream_idx = old.length)
    (hne : bytes ≠ []) (hval : replacementChar ∉ utf8Lossy bytes) :
    (s.get_delta.1 =
      some (if old.length = 0 then trimStartCp (utf8Lossy bytes) else utf8Lossy bytes))
    ∧ s.get_delta.2.stream_idx = s.completion_bytes.length
    ∧ s.get_delta.2.completion_bytes = s.completion_bytes
    ∧ s.get_delta.2.get_delta = (some [], s.get_delta.2) := by
  have hdrop : s.completion_bytes.drop s.stream_idx = bytes := by
    rw [hcb, hidx]
    exact List.drop_left _ _
  have hlastne : (utf8Lossy bytes).getLast? ≠ some replacementChar := fun h =>
    hval (mem_of_getLast?_eq_some h)
  have hpeek : s.peek_delta =
      some (if old.length = 0 then trimStartCp (utf8Lossy bytes) else utf8Lossy bytes) := by
    have hdrop2 : List.drop old.length s.completion_bytes = bytes := by
      rw [← hidx]
      exact hdrop
    simp only [Sequence.peek_delta, hidx, hdrop2]
    by_cases h0 : old.length = 0 <;> simp [h0, hlastne]
  have hgd : s.get_delta =
      (some (if old.length = 0 then trimStartCp (utf8Lossy bytes) else utf8Lossy bytes),
        { s with stream_idx := s.completion_bytes.length }) := by
    simp only [Sequence.get_delta, hpeek]
  have hpeek2 : ({ s with stream_idx := s.completion_bytes.length } :
      Sequence).peek_delta = some [] := by
    have htotal : ¬s.completion_bytes.length = 0 := by
      rw [hcb]
      simp only [List.length_append]
      have := List.length_pos.mpr hne
      omega
    simp only [Sequence.peek_delta]
    simp [List.drop_length, utf8Lossy, utf8LossyFuel, htotal, trimStartCp]
  refine ⟨by rw [hgd], by rw [hgd], by rw [hgd], ?_⟩
  rw [hgd]
  simp only [Sequence.get_delta, hpeek2]

/-- C8 witness: the amended behaviour evaluated on a fresh sequence
receiving the single byte `"a"`. -/
theorem claim_c8_get_delta_witness :
    seqOneByteDelta.get_delta.1 = some (trimStartCp (utf8Lossy [0x61])) ∧
      seqOneByteDelta.get_delta.2.get_delta = (some [], seqOneByteDelta.get_delta.2) := by
  have h := claim_c8_get_delta seqOneByteDelta [] [0x61] rfl rfl (by decide) (by decide)
  exact ⟨h.1, h.2.2.2⟩

/-- `gs_find` returns exactly the smallest byte offset at which the pattern
occurs as a substring (a prefix of the haystack's suffix at that offset). -/
theorem gs_find_eq_some_iff :
    ∀ (hay pat : List Nat) (p : Nat),
      gs_find hay pat = some p ↔
        (pat.isPrefixOf (hay.drop p) = true ∧
          ∀ q, q < p → pat.isPrefixOf (hay.drop q) = false) := by
  intro hay
  induction hay with
  | nil =>
    intro pat p
    simp only [gs_find, List.drop_nil]
    by_cases h : pat.isPrefixOf ([] : List Nat) = true
    · rw [if_pos h]
      constructor
      · intro he
        have hp : p = 0 := (Option.some_inj.mp he).symm
        subst hp
        exact ⟨h, fun q hq => absurd hq (Nat.not_lt_zero q)⟩
      · rintro ⟨_, h2⟩
        by_cases hp : p = 0
        · subst hp; rfl
        · have h0 := h2 0 (Nat.pos_of_ne_zero hp)
          rw [h0] at h
          exact absurd h Bool.false_ne_true
    · rw [if_neg h]
      constructor
      · intro he; exact absurd he (by simp)
      · rintro ⟨h1, _⟩; exact absurd h1 h
  | cons b t ih =>
    intro pat p
    simp only [gs_find]
    by_cases h : pat.isPrefixOf (b :: t) = true
    · rw [if_pos h]
      constructor
      · intro he
        have hp : p = 0 := (Option.some_inj.mp he).symm
        subst hp
        exact ⟨by simpa using h, fun q hq => absurd hq (Nat.not_lt_zero q)⟩
      · rintro ⟨_, h2⟩
        cases p with
        | zero => rfl
        | succ p =>
          have h0 := h2 0 (Nat.succ_pos p)
          rw [List.drop_zero] at h0
          rw [h0] at h
          exact absurd h Bool.false_ne_true
    · rw [if_neg h]
      have hf : pat.isPrefixOf (b :: t) = false := eq_false_of_ne_true h
      cases p with
      | zero =>
        constructor
        · intro he
          obtain ⟨a, _, ha⟩ := Option.map_eq_some'.mp he
          omega
        · rintro ⟨h1, _⟩
          simp only [List.drop_zero] at h1
          exact absurd h1 h
      | succ p =>
        constructor
        · intro he
          obtain ⟨a, hfind, ha⟩ := Option.map_eq_some'.mp he
          have hap : a = p := by omega
          rw [hap] at hfind
          obtain ⟨ih1, ih2⟩ := (ih pat p).mp hfind
          refine ⟨by simpa [List.drop_succ_cons] using ih1, ?_⟩
          intro q hq
          cases q with
          | zero => simpa using hf
          | succ q => simpa [List.drop_succ_cons] using ih2 q (by omega)
        · rintro ⟨h1, h2⟩
          have hfind : gs_find t pat = some p := by
            apply (ih pat p).mpr
            refine ⟨by simpa [List.drop_succ_cons] using h1, ?_⟩
            intro q hq
            simpa [List.drop_succ_cons] using h2 (q + 1) (by omega)
          rw [hfind]
          rfl

/-- When no configured stop string occurs, the stop-string loop reports
nothing. -/
theorem findStopStringAux_none (bytes : List Nat) :
    ∀ (ss : List (List Nat)) (idx : Nat),
      (∀ sstr ∈ ss, gs_find bytes sstr = none) →
      findStopStringAux bytes ss idx = none := by
  intro ss
  induction ss with
  | nil => intro idx _; rfl
  | cons sh st ih =>
    intro idx hall
    have h1 : gs_find bytes sh = none := hall sh (by simp)
    simp only [findStopStringAux, h1]
    exact ih (idx + 1) (fun x hx => hall x (by simp [hx]))

/-- The stop-string loop reports the first stop string (by configuration
index) that occurs, with the offset `gs_find` found for it. -/
theorem findStopStringAux_some (bytes : List Nat) :
    ∀ (ss : List (List Nat)) (i p idx : Nat),
      i < ss.length →
      (∀ j, j < i → gs_find bytes (ss.getD j []) = none) →
      gs_find bytes (ss.getD i []) = some p →
      findStopStringAux bytes ss idx = some (StopReason.StopString (idx + i) p) := by
  intro ss
  induction ss with
  | nil => intro i p idx hi; simp at hi
  | cons sh st ih =>
    intro i p idx hi hnone hsome
    cases i with
    | zero =>
      have h1 : gs_find bytes sh = some p := by simpa using hsome
      simp [findStopStringAux, h1]
    | succ i =>
      have h0 : gs_find bytes sh = none := by simpa using hnone 0 (Nat.succ_pos i)
      simp only [findStopStringAux, h0]
      have hrec := ih i p (idx + 1) (by simpa using hi)
        (fun j hj => by simpa using hnone (j + 1) (by omega)) (by simpa using hsome)
      rw [hrec]
      have harith : idx + 1 + i = idx + (i + 1) := by omega
      rw [harith]

/-- C1: `is_done` classifies termination with this precedence, earlier rules
winning: EOS token, already-cancelled state, configured stop token,
configured `max_len` on `generated + 1`, model context length on
`generated`, then the first configured stop string occurring in the decoded
output (first by string index, reporting the leftmost byte offset of that
string, as characterised by the final conjunct); no rule → no stop reason. -/
theorem claim_c1_is_done_precedence (s : Sequence) (tok max_model_len : Nat)
    (eos_tok : Option (List Nat)) :
    (∀ eos, eos_tok = some eos → tok ∈ eos →
      s.is_done tok eos_tok max_model_len = some StopReason.Eos)
    ∧ ((∀ eos, eos_tok = some eos → tok ∉ eos) →
      s.state = SequenceState.Done StopReason.Canceled →
      s.is_done tok eos_tok max_model_len = some StopReason.Canceled)
    ∧ ((∀ eos, eos_tok = some eos → tok ∉ eos) →
      s.state ≠ SequenceState.Done StopReason.Canceled →
      tok ∈ s.stop_tokens →
      s.is_done tok eos_tok max_model_len = some (StopReason.StopTok tok))
    ∧ (∀ ml, (∀ eos, eos_tok = some eos → tok ∉ eos) →
      s.state ≠ SequenceState.Done StopReason.Canceled →
      tok ∉ s.stop_tokens →
      s.max_len = some ml → ml ≤ s.tokens.length - s.prompt_len + 1 →
      s.is_done tok eos_tok max_model_len = some (StopReason.Length ml))
    ∧ ((∀ eos, eos_tok = some eos → tok ∉ eos) →
      s.state ≠ SequenceState.Done StopReason.Canceled →
      tok ∉ s.stop_tokens →
      (∀ ml, s.max_len = some ml → s.tokens.length - s.prompt_len + 1 < ml) →
      max_model_len ≤ s.tokens.length - s.prompt_len →
      s.is_done tok eos_tok max_model_len = some (StopReason.ModelLength max_model_len))
    ∧ (∀ i p, (∀ eos, eos_tok = some eos → tok ∉ eos) →
      s.state ≠ SequenceState.Done StopReason.Canceled →
      tok ∉ s.stop_tokens →
      (∀ ml, s.max_len = some ml → s.tokens.length - s.prompt_len + 1 < ml) →
      s.tokens.length - s.prompt_len < max_model_len →
      i < s.stop_strings.length →
      (∀ j, j < i → gs_find s.completion_bytes (s.stop_strings.getD j []) = none) →
      gs_find s.completion_bytes (s.stop_strings.getD i []) = some p →
      s.is_done tok eos_tok max_model_len = some (StopReason.StopString i p))
    ∧ ((∀ eos, eos_tok = some eos → tok ∉ eos) →
      s.state ≠ SequenceState.Done StopReason.Canceled →
      tok ∉ s.stop_tokens →
      (∀ ml, s.max_len = some ml → s.tokens.length - s.prompt_len + 1 < ml) →
      s.tokens.length - s.prompt_len < max_model_len →
      (∀ sstr ∈ s.stop_strings, gs_find s.completion_bytes sstr = none) →
      s.is_done tok eos_tok max_model_len = none)
    ∧ (∀ (hay pat : List Nat) (p : Nat),
      gs_find hay pat = some p ↔
        (pat.isPrefixOf (hay.drop p) = true ∧
          ∀ q, q < p → pat.isPrefixOf (hay.drop q) = false)) := by
  have heos_false : (∀ eos, eos_tok = some eos → tok ∉ eos) →
      isEosTok tok eos_tok = false := by
    intro h
    cases eos_tok with
    | none => rfl
    | some eos => simp [isEosTok, h eos rfl]
  have hmax_false : (∀ ml, s.max_len = some ml → s.tokens.length - s.prompt_len + 1 < ml) →
      ¬(s.max_len.isSome = true ∧
        s.max_len.getD 0 ≤ s.tokens.length - s.prompt_len + 1) := by
    rintro h ⟨hsome, hge⟩
    cases hml : s.max_len with
    | none => rw [hml] at hsome; simp at hsome
    | some ml =>
      have := h ml hml
      rw [hml] at hge
      simp only [Option.getD_some] at hge
      omega
  have hfall : (∀ eos, eos_tok = some eos → tok ∉ eos) →
      s.state ≠ SequenceState.Done StopReason.Canceled →
      tok ∉ s.stop_tokens →
      (∀ ml, s.max_len = some ml → s.tokens.length - s.prompt_len + 1 < ml) →
      s.tokens.length - s.prompt_len < max_model_len →
      s.is_done tok eos_tok max_model_len =
        findStopStringAux s.completion_bytes s.stop_strings 0 := by
    intro h1 h2 h3 h4 h5
    simp [Sequence.is_done, heos_false h1, h2, h3, hmax_false h4, Nat.not_le.mpr h5]
  refine ⟨?_, ?_, ?_, ?_, ?_, ?_, ?_, gs_find_eq_some_iff⟩
  · rintro eos rfl hmem
    have ht : isEosTok tok (some eos) = true := by simp [isEosTok, hmem]
    simp [Sequence.is_done, ht]
  · intro h1 h2
    simp [Sequence.is_done, heos_false h1, h2]
  · intro h1 h2 h3
    simp [Sequence.is_done, heos_false h1, h2, h3]
  · intro ml h1 h2 h3 hml hge
    simp [Sequence.is_done, heos_false h1, h2, h3, hml, hge]
  · intro h1 h2 h3 h4 h5
    simp [Sequence.is_done, heos_false h1, h2, h3, hmax_false h4, h5]
  · intro i p h1 h2 h3 h4 h5 hi hnone hsome
    rw [hfall h1 h2 h3 h4 h5]
    simpa using findStopStringAux_some s.completion_bytes s.stop_strings i p 0 hi hnone hsome
  · intro h1 h2 h3 h4 h5 hall
    rw [hfall h1 h2 h3 h4 h5]
    exact findStopStringAux_none s.completion_bytes s.stop_strings 0 hall

/-- C1 witness: the EOS rule on a provided EOS set containing the token, and
the stop-string rule finding `"END"` at byte offset 7 of `"hello wEND"`. -/
theorem claim_c1_is_done_precedence_witness :
    baseSeq.is_done 5 (some [5]) 100 = some StopReason.Eos ∧
      seqStopString.is_done 7 none 100 = some (StopReason.StopString 0 7) := by
  constructor
  · exact (claim_c1_is_done_precedence baseSeq 5 100 (some [5])).1 [5] rfl (by decide)
  · exact (claim_c1_is_done_precedence seqStopString 7 100 none).2.2.2.2.2.1 0 7
      (fun eos h => by cases h) (by decide) (by decide) (fun ml h => by cases h)
      (by decide) (by decide) (fun j hj => by omega) (by decide)

end Mistralrs
